import Mathlib

/-!
A shallow embedding of the simtic tic-tac-toe engine (src/main.c): position
representation, move generation, apply/undo, terminal and heuristic
evaluation, and the depth-bounded minimax search, together with theorems
about them.
-/

namespace Simtic

/-- Cell / side state, mirroring the C enum with WHITE, BLACK, EMPTY.
WHITE is the first player (X), BLACK the second (O). -/
inductive Sq where
  | WHITE
  | BLACK
  | EMPTY
deriving DecidableEq, Repr, Fintype

/-- Board position: 9 squares (indices 0 - 8) and the color to move next,
mirroring struct board_pos. -/
structure BoardPos where
  sq : Fin 9 → Sq
  color : Sq

/-- The best possible score for a given position (const int INF = 100). -/
def INF : Int := 100

/-- The color opposite to the given one, as computed by the C expression
(c == WHITE) ? BLACK : WHITE. -/
def otherColor (c : Sq) : Sq :=
  if c = Sq.WHITE then Sq.BLACK else Sq.WHITE

/-- All winning three-in-a-row combinations (const int winning_squares[8][3]). -/
def winning_squares : List (Fin 9 × Fin 9 × Fin 9) :=
  [(0,1,2),(3,4,5),(6,7,8),(0,3,6),(1,4,7),(2,5,8),(0,4,8),(2,4,6)]

/-- The square indices 0 - 8 in order, as iterated by the C loops
for (i = 0; i < SQUARES_MAX; i++). -/
def squareIndices : List (Fin 9) :=
  [0,1,2,3,4,5,6,7,8]

/-- The inner loop of checkmate: scan a triple, breaking at the first square
not owned by the given color; the triple counts iff all three are owned.
The short-circuiting conjunction is exactly the loop with its break. -/
def tripleOwned (pos : BoardPos) (c : Sq) (t : Fin 9 × Fin 9 × Fin 9) : Bool :=
  decide (pos.sq t.1 = c) && (decide (pos.sq t.2.1 = c) && decide (pos.sq t.2.2 = c))

/-- checkmate: true iff some winning triple is fully owned by the color that
made the last move (the opposite of pos.color). The C function returns the
int 1 or 0, used as a boolean. -/
def checkmate (pos : BoardPos) : Bool :=
  winning_squares.any (tripleOwned pos (otherColor pos.color))

/-- How many of three given cell values equal the color c. -/
def cellCount (c x y z : Sq) : Nat :=
  (if x = c then 1 else 0) + (if y = c then 1 else 0) + (if z = c then 1 else 0)

/-- How many squares of the triple hold the given color (the counter named
ours in the C code; eval counts all three without breaking). -/
def tripleCount (pos : BoardPos) (c : Sq) (t : Fin 9 × Fin 9 × Fin 9) : Nat :=
  cellCount c (pos.sq t.1) (pos.sq t.2.1) (pos.sq t.2.2)

/-- eval: for each of the 8 triples, if the side to move owns at least 2 of
its squares, add +1 for every empty square and -1 for every enemy square of
that triple. -/
def eval (pos : BoardPos) : Int :=
  let enemy := otherColor pos.color
  winning_squares.foldl
    (fun points t =>
      if 1 < tripleCount pos pos.color t then
        points + ((tripleCount pos Sq.EMPTY t : Int) - (tripleCount pos enemy t : Int))
      else points)
    0

/-- board_empty: true iff some square is EMPTY (the C loop returns true at
the first empty square). -/
def board_empty (pos : BoardPos) : Bool :=
  squareIndices.any (fun i => decide (pos.sq i = Sq.EMPTY))

/-- move_generate: the list of empty squares, scanned in ascending index
order. The C code writes them into a fixed array with a count; the list
holds exactly the written prefix. -/
def move_generate (pos : BoardPos) : List (Fin 9) :=
  squareIndices.filter (fun i => decide (pos.sq i = Sq.EMPTY))

/-- move_do: place the mark of the color to move on the given square and
flip the color. -/
def move_do (pos : BoardPos) (m : Fin 9) : BoardPos :=
  { sq := Function.update pos.sq m pos.color, color := otherColor pos.color }

/-- move_undo: empty the given square and flip the color back. -/
def move_undo (pos : BoardPos) (m : Fin 9) : BoardPos :=
  { sq := Function.update pos.sq m Sq.EMPTY, color := otherColor pos.color }

/-- minimax: depth-bounded exhaustive search. A won position scores -INF
when WHITE is to move (BLACK just won) and +INF otherwise; a full unwon
board scores 0; at the depth horizon the heuristic eval is returned,
negated when WHITE is to move; otherwise fold max (WHITE) or min (BLACK)
of the recursive scores over all generated moves, starting from -INF
(WHITE) or +INF (BLACK). The C code walks children by mutating the position
with move_do and restoring it with move_undo; for a position whose color is
WHITE or BLACK the restoration is exact, so the pure recursion below visits
the same child positions. -/
def minimax (pos : BoardPos) (d : Nat) : Int :=
  if checkmate pos then (if pos.color = Sq.WHITE then -INF else INF)
  else if board_empty pos = false then 0
  else
    match d with
    | 0 => if pos.color = Sq.WHITE then -(eval pos) else eval pos
    | Nat.succ d' =>
      (move_generate pos).foldl
        (fun score m =>
          let score_best := minimax (move_do pos m) d'
          if pos.color = Sq.WHITE then max score score_best else min score score_best)
        (if pos.color = Sq.WHITE then -INF else INF)

/-- One step of the move_pick loop: the state is the pair
(move_picked, score_current); a candidate replaces the state only when its
score strictly improves it (strict greater-than for WHITE, strict less-than
for BLACK). -/
def pickStep (pos : BoardPos) (depth : Nat) (st : Int × Int) (m : Fin 9) : Int × Int :=
  let s := minimax (move_do pos m) depth
  if pos.color = Sq.WHITE then
    (if st.2 < s then ((m : Int), s) else st)
  else
    (if s < st.2 then ((m : Int), s) else st)

/-- move_pick: generate the moves, default to the first one (MOVE_NONE = -1
on a full board), then fold the strict-improvement step over the candidates
starting from score -INF (WHITE) or +INF (BLACK), and return the picked
move. -/
def move_pick (pos : BoardPos) (depth : Nat) : Int :=
  let mlist := move_generate pos
  let move0 : Int := match mlist with | [] => -1 | m :: _ => (m : Int)
  let score0 : Int := if pos.color = Sq.WHITE then -INF else INF
  (mlist.foldl (pickStep pos depth) (move0, score0)).1

/-- The empty starting position: all squares EMPTY, WHITE to move. -/
def startPos : BoardPos :=
  { sq := fun _ => Sq.EMPTY, color := Sq.WHITE }

/-- How many squares hold the given color (count over indices 0 - 8). -/
def countColor (pos : BoardPos) (c : Sq) : Nat :=
  (squareIndices.filter (fun i => decide (pos.sq i = c))).length

/-- The position invariant from the data model: the two mark counts differ
by at most one, and the side to move is a mark whose count is not greater
than the other (WHITE moves first, so with equal counts WHITE is to move). -/
def posInv (pos : BoardPos) : Prop :=
  countColor pos Sq.WHITE ≤ countColor pos Sq.BLACK + 1
  ∧ countColor pos Sq.BLACK ≤ countColor pos Sq.WHITE + 1
  ∧ ((pos.color = Sq.WHITE ∧ countColor pos Sq.WHITE ≤ countColor pos Sq.BLACK)
     ∨ (pos.color = Sq.BLACK ∧ countColor pos Sq.BLACK ≤ countColor pos Sq.WHITE))

/-- True iff playing the given square with color c would complete one of the
winning triples (the other two squares of some triple through m already
hold c). Used only to order candidate moves inside the bound checkers. -/
def completesTriple (pos : BoardPos) (c : Sq) (m : Fin 9) : Bool :=
  winning_squares.any (fun t =>
    (decide (t.1 = m) && (decide (pos.sq t.2.1 = c) && decide (pos.sq t.2.2 = c)))
    || (decide (t.2.1 = m) && (decide (pos.sq t.1 = c) && decide (pos.sq t.2.2 = c)))
    || (decide (t.2.2 = m) && (decide (pos.sq t.1 = c) && decide (pos.sq t.2.1 = c))))

/-- Candidate moves reordered for the bound checkers: immediate wins first,
then blocks of the opponent, then the center, corners and edges. Every
listed move is an empty square of the position; the order only steers the
certificate search and carries no correctness weight. -/
def orderedMoves (pos : BoardPos) : List (Fin 9) :=
  let ms := move_generate pos
  ms.filter (fun m => completesTriple pos pos.color m)
  ++ ms.filter (fun m => completesTriple pos (otherColor pos.color) m)
  ++ ([4,0,2,6,8,1,3,5,7] : List (Fin 9)).filter (fun m => decide (pos.sq m = Sq.EMPTY))

/-- Certificate checker for an upper bound on minimax: at a node of the
maximizing side (WHITE) every generated move must check, while at a node of
the minimizing side it suffices that some legal move checks, searched in
the orderedMoves order. Soundness is proved below; this checker only makes
the bound kernel-computable without walking the whole game tree. -/
def ubCheck (b : Int) (pos : BoardPos) : Nat → Bool
  | 0 =>
    if checkmate pos then decide ((if pos.color = Sq.WHITE then -INF else INF) ≤ b)
    else if board_empty pos = false then decide ((0 : Int) ≤ b)
    else decide ((if pos.color = Sq.WHITE then -(eval pos) else eval pos) ≤ b)
  | Nat.succ d' =>
    if checkmate pos then decide ((if pos.color = Sq.WHITE then -INF else INF) ≤ b)
    else if board_empty pos = false then decide ((0 : Int) ≤ b)
    else if pos.color = Sq.WHITE then
      decide (-INF ≤ b) && (move_generate pos).all (fun m => ubCheck b (move_do pos m) d')
    else
      (orderedMoves pos).any (fun m => ubCheck b (move_do pos m) d')

/-- Certificate checker for a lower bound on minimax, dual to ubCheck: the
minimizing side (BLACK) branches over every generated move, the maximizing
side needs one legal move that checks. -/
def lbCheck (b : Int) (pos : BoardPos) : Nat → Bool
  | 0 =>
    if checkmate pos then decide (b ≤ (if pos.color = Sq.WHITE then -INF else INF))
    else if board_empty pos = false then decide (b ≤ (0 : Int))
    else decide (b ≤ (if pos.color = Sq.WHITE then -(eval pos) else eval pos))
  | Nat.succ d' =>
    if checkmate pos then decide (b ≤ (if pos.color = Sq.WHITE then -INF else INF))
    else if board_empty pos = false then decide (b ≤ (0 : Int))
    else if pos.color = Sq.WHITE then
      (orderedMoves pos).any (fun m => lbCheck b (move_do pos m) d')
    else
      decide (b ≤ INF) && (move_generate pos).all (fun m => lbCheck b (move_do pos m) d')

/-- Fuel-bounded variant of minimax: identical to minimax except that each
recursive step consumes one unit of fuel and exhausted fuel yields none.
Used to state that the recursion of minimax is well-founded on the depth
argument: fuel equal to the depth always suffices. -/
def minimaxF (fuel : Nat) (pos : BoardPos) (d : Nat) : Option Int :=
  if checkmate pos then some (if pos.color = Sq.WHITE then -INF else INF)
  else if board_empty pos = false then some 0
  else
    match d with
    | 0 => some (if pos.color = Sq.WHITE then -(eval pos) else eval pos)
    | Nat.succ d' =>
      match fuel with
      | 0 => none
      | Nat.succ fuel' =>
        (move_generate pos).foldl
          (fun acc m =>
            match acc, minimaxF fuel' (move_do pos m) d' with
            | some s, some sb =>
              some (if pos.color = Sq.WHITE then max s sb else min s sb)
            | _, _ => none)
          (some (if pos.color = Sq.WHITE then -INF else INF))

/-- A concrete position: WHITE marks on squares 0 and 1, everything else
empty, WHITE to move. -/
def pos0 : BoardPos :=
  { sq := fun i => if i.val < 2 then Sq.WHITE else Sq.EMPTY, color := Sq.WHITE }

/-- The score move_pick assigns to a candidate move: minimax of the
position after playing it, searched at the full given depth. -/
def candScore (pos : BoardPos) (depth : Nat) (m : Fin 9) : Int :=
  minimax (move_do pos m) depth

/-- The strict-improvement comparison of move_pick: a candidate score a
improves on the current score b when a is strictly greater (WHITE to move,
maximizing) respectively strictly smaller (otherwise, minimizing). -/
def improves (pos : BoardPos) (a b : Int) : Prop :=
  if pos.color = Sq.WHITE then b < a else a < b

/-!  General lemmas about the max- and min-folds used by minimax. -/

lemma le_foldl_max_init {α : Type} (f : α → Int) :
    ∀ (l : List α) (a : Int), a ≤ l.foldl (fun s x => max s (f x)) a
  | [], _ => le_refl _
  | x :: xs, a =>
    le_trans (le_max_left a (f x)) (le_foldl_max_init f xs (max a (f x)))

lemma le_foldl_max_of_mem {α : Type} (f : α → Int) :
    ∀ (l : List α) (a : Int) (x : α), x ∈ l →
      f x ≤ l.foldl (fun s y => max s (f y)) a
  | y :: ys, a, x, hx => by
    rcases List.mem_cons.mp hx with h | h
    · subst h
      exact le_trans (le_max_right a (f x)) (le_foldl_max_init f ys _)
    · exact le_foldl_max_of_mem f ys _ x h

lemma foldl_max_le {α : Type} (f : α → Int) (b : Int) :
    ∀ (l : List α) (a : Int), a ≤ b → (∀ x ∈ l, f x ≤ b) →
      l.foldl (fun s x => max s (f x)) a ≤ b
  | [], a, ha, _ => ha
  | x :: xs, a, ha, h => by
    refine foldl_max_le f b xs (max a (f x)) (max_le ha ?_) ?_
    · exact h x (List.mem_cons_self x xs)
    · intro y hy
      exact h y (List.mem_cons_of_mem x hy)

lemma foldl_min_le_init {α : Type} (f : α → Int) :
    ∀ (l : List α) (a : Int), l.foldl (fun s x => min s (f x)) a ≤ a
  | [], _ => le_refl _
  | x :: xs, a =>
    le_trans (foldl_min_le_init f xs (min a (f x))) (min_le_left a (f x))

lemma foldl_min_le_of_mem {α : Type} (f : α → Int) :
    ∀ (l : List α) (a : Int) (x : α), x ∈ l →
      l.foldl (fun s y => min s (f y)) a ≤ f x
  | y :: ys, a, x, hx => by
    rcases List.mem_cons.mp hx with h | h
    · subst h
      exact le_trans (foldl_min_le_init f ys _) (min_le_right a (f x))
    · exact foldl_min_le_of_mem f ys _ x h

lemma le_foldl_min {α : Type} (f : α → Int) (b : Int) :
    ∀ (l : List α) (a : Int), b ≤ a → (∀ x ∈ l, b ≤ f x) →
      b ≤ l.foldl (fun s x => min s (f x)) a
  | [], a, ha, _ => ha
  | x :: xs, a, ha, h => by
    refine le_foldl_min f b xs (min a (f x)) (le_min ha ?_) ?_
    · exact h x (List.mem_cons_self x xs)
    · intro y hy
      exact h y (List.mem_cons_of_mem x hy)

/-!  Unfolding lemmas for minimax. -/

lemma minimax_won (pos : BoardPos) (d : Nat) (h : checkmate pos = true) :
    minimax pos d = if pos.color = Sq.WHITE then -INF else INF := by
  cases d <;> simp [minimax, h]

lemma minimax_full (pos : BoardPos) (d : Nat) (h1 : checkmate pos = false)
    (h2 : board_empty pos = false) : minimax pos d = 0 := by
  cases d <;> simp [minimax, h1, h2]

lemma minimax_horizon (pos : BoardPos) (h1 : checkmate pos = false)
    (h2 : board_empty pos = true) :
    minimax pos 0 = if pos.color = Sq.WHITE then -(eval pos) else eval pos := by
  simp [minimax, h1, h2]

lemma minimax_succ_white (pos : BoardPos) (d : Nat) (h1 : checkmate pos = false)
    (h2 : board_empty pos = true) (hc : pos.color = Sq.WHITE) :
    minimax pos (d + 1)
      = (move_generate pos).foldl
          (fun s m => max s (minimax (move_do pos m) d)) (-INF) := by
  simp [minimax, h1, h2, hc]

lemma minimax_succ_black (pos : BoardPos) (d : Nat) (h1 : checkmate pos = false)
    (h2 : board_empty pos = true) (hc : ¬ pos.color = Sq.WHITE) :
    minimax pos (d + 1)
      = (move_generate pos).foldl
          (fun s m => min s (minimax (move_do pos m) d)) INF := by
  simp [minimax, h1, h2, hc]

/-!  Bounds on the heuristic eval and on minimax. -/

lemma foldl_cond_bound {α : Type} (g : α → Int) (p : α → Prop) [DecidablePred p]
    (k : Int) (hk : 0 ≤ k) :
    ∀ (l : List α) (a : Int), (∀ x ∈ l, p x → -k ≤ g x ∧ g x ≤ k) →
      a - k * l.length ≤ l.foldl (fun s x => if p x then s + g x else s) a
      ∧ l.foldl (fun s x => if p x then s + g x else s) a ≤ a + k * l.length
  | [], a, _ => by simp
  | x :: xs, a, h => by
    have hx := h x (List.mem_cons_self x xs)
    have ih := foldl_cond_bound g p k hk xs (if p x then a + g x else a)
      (fun y hy hpy => h y (List.mem_cons_of_mem x hy) hpy)
    simp only [List.foldl_cons, List.length_cons] at ih ⊢
    have hlen : (k * ((xs.length : Int) + 1)) = k * xs.length + k := by ring
    push_cast
    rw [hlen]
    by_cases hpx : p x
    · rw [if_pos hpx] at ih ⊢
      have hb := hx hpx
      constructor <;> linarith [ih.1, ih.2, hb.1, hb.2]
    · rw [if_neg hpx] at ih ⊢
      constructor <;> linarith [ih.1, ih.2, hk]

lemma cell_adj_weak : ∀ (e x y z : Sq),
    -3 ≤ (cellCount Sq.EMPTY x y z : Int) - (cellCount e x y z : Int)
    ∧ (cellCount Sq.EMPTY x y z : Int) - (cellCount e x y z : Int) ≤ 3 := by
  decide

lemma cell_adj_strict : ∀ (c x y z : Sq), ¬ c = Sq.EMPTY →
    1 < cellCount c x y z →
    -1 ≤ (cellCount Sq.EMPTY x y z : Int) - (cellCount (otherColor c) x y z : Int)
    ∧ (cellCount Sq.EMPTY x y z : Int) - (cellCount (otherColor c) x y z : Int) ≤ 1 := by
  decide

lemma eval_bound_weak (pos : BoardPos) : -24 ≤ eval pos ∧ eval pos ≤ 24 := by
  have h := foldl_cond_bound
    (fun t => (tripleCount pos Sq.EMPTY t : Int) - (tripleCount pos (otherColor pos.color) t : Int))
    (fun t => 1 < tripleCount pos pos.color t) 3 (by norm_num) winning_squares 0
    (fun t _ _ => cell_adj_weak (otherColor pos.color) (pos.sq t.1) (pos.sq t.2.1) (pos.sq t.2.2))
  simpa [eval, tripleCount] using h

lemma eval_bound_strict (pos : BoardPos) (hc : ¬ pos.color = Sq.EMPTY) :
    -8 ≤ eval pos ∧ eval pos ≤ 8 := by
  have h := foldl_cond_bound
    (fun t => (tripleCount pos Sq.EMPTY t : Int) - (tripleCount pos (otherColor pos.color) t : Int))
    (fun t => 1 < tripleCount pos pos.color t) 1 (by norm_num) winning_squares 0
    (fun t _ hp =>
      cell_adj_strict pos.color (pos.sq t.1) (pos.sq t.2.1) (pos.sq t.2.2) hc hp)
  simpa [eval, tripleCount] using h

lemma minimax_bound : ∀ (d : Nat) (pos : BoardPos),
    -INF ≤ minimax pos d ∧ minimax pos d ≤ INF := by
  intro d
  induction d with
  | zero =>
    intro pos
    by_cases h1 : checkmate pos = true
    · rw [minimax_won pos 0 h1]
      split <;> simp [INF]
    · have h1f : checkmate pos = false := by simpa using h1
      by_cases h2 : board_empty pos = true
      · rw [minimax_horizon pos h1f h2]
        have hw := eval_bound_weak pos
        split <;> constructor <;> simp only [INF] <;> omega
      · rw [minimax_full pos 0 h1f (by simpa using h2)]
        constructor <;> simp [INF]
  | succ d ih =>
    intro pos
    by_cases h1 : checkmate pos = true
    · rw [minimax_won pos (d + 1) h1]
      split <;> simp [INF]
    · have h1f : checkmate pos = false := by simpa using h1
      by_cases h2 : board_empty pos = true
      · by_cases hc : pos.color = Sq.WHITE
        · rw [minimax_succ_white pos d h1f h2 hc]
          constructor
          · exact le_foldl_max_init _ _ _
          · exact foldl_max_le _ INF _ _ (by simp [INF]) (fun m _ => (ih (move_do pos m)).2)
        · rw [minimax_succ_black pos d h1f h2 hc]
          constructor
          · exact le_foldl_min _ (-INF) _ _ (by simp [INF]) (fun m _ => (ih (move_do pos m)).1)
          · exact foldl_min_le_init _ _ _
      · rw [minimax_full pos (d + 1) h1f (by simpa using h2)]
        constructor <;> simp [INF]

/-!  Membership facts for generated and ordered moves. -/

lemma mem_squareIndices : ∀ i : Fin 9, i ∈ squareIndices := by
  decide

lemma mem_move_generate (pos : BoardPos) (m : Fin 9) :
    m ∈ move_generate pos ↔ pos.sq m = Sq.EMPTY := by
  simp [move_generate, List.mem_filter, mem_squareIndices m]

lemma move_generate_ne_nil (pos : BoardPos) (h : board_empty pos = true) :
    move_generate pos ≠ [] := by
  obtain ⟨i, hi, he⟩ := List.any_eq_true.mp h
  exact List.ne_nil_of_mem ((mem_move_generate pos i).mpr (of_decide_eq_true he))

lemma orderedMoves_empty_sq (pos : BoardPos) (m : Fin 9)
    (h : m ∈ orderedMoves pos) : pos.sq m = Sq.EMPTY := by
  simp only [orderedMoves, List.mem_append, List.mem_filter] at h
  rcases h with (⟨hm, _⟩ | ⟨hm, _⟩) | ⟨_, hm⟩
  · exact (mem_move_generate pos m).mp hm
  · exact (mem_move_generate pos m).mp hm
  · exact of_decide_eq_true hm

/-!  Soundness of the two bound checkers. -/

lemma ubCheck_sound : ∀ (d : Nat) (pos : BoardPos) (b : Int),
    ubCheck b pos d = true → minimax pos d ≤ b := by
  intro d
  induction d with
  | zero =>
    intro pos b h
    simp only [ubCheck] at h
    by_cases h1 : checkmate pos = true
    · rw [minimax_won pos 0 h1]
      rw [if_pos h1] at h
      exact of_decide_eq_true h
    · have h1f : checkmate pos = false := by simpa using h1
      rw [if_neg h1] at h
      by_cases h2 : board_empty pos = false
      · rw [minimax_full pos 0 h1f h2, if_pos h2] at *
        exact of_decide_eq_true h
      · rw [if_neg h2] at h
        rw [minimax_horizon pos h1f (by simpa using h2)]
        exact of_decide_eq_true h
  | succ d ih =>
    intro pos b h
    simp only [ubCheck] at h
    by_cases h1 : checkmate pos = true
    · rw [minimax_won pos (d + 1) h1]
      rw [if_pos h1] at h
      exact of_decide_eq_true h
    · have h1f : checkmate pos = false := by simpa using h1
      rw [if_neg h1] at h
      by_cases h2 : board_empty pos = false
      · rw [minimax_full pos (d + 1) h1f h2, if_pos h2] at *
        exact of_decide_eq_true h
      · rw [if_neg h2] at h
        have h2t : board_empty pos = true := by simpa using h2
        by_cases hc : pos.color = Sq.WHITE
        · rw [if_pos hc] at h
          rw [Bool.and_eq_true] at h
          obtain ⟨hb, hall⟩ := h
          rw [minimax_succ_white pos d h1f h2t hc]
          refine foldl_max_le _ b _ _ (of_decide_eq_true hb) ?_
          intro m hm
          exact ih (move_do pos m) b (List.all_eq_true.mp hall m hm)
        · rw [if_neg hc] at h
          obtain ⟨m, hm, hcheck⟩ := List.any_eq_true.mp h
          rw [minimax_succ_black pos d h1f h2t hc]
          refine le_trans ?_ (ih (move_do pos m) b hcheck)
          exact foldl_min_le_of_mem _ _ _ m
            ((mem_move_generate pos m).mpr (orderedMoves_empty_sq pos m hm))

lemma lbCheck_sound : ∀ (d : Nat) (pos : BoardPos) (b : Int),
    lbCheck b pos d = true → b ≤ minimax pos d := by
  intro d
  induction d with
  | zero =>
    intro pos b h
    simp only [lbCheck] at h
    by_cases h1 : checkmate pos = true
    · rw [minimax_won pos 0 h1]
      rw [if_pos h1] at h
      exact of_decide_eq_true h
    · have h1f : checkmate pos = false := by simpa using h1
      rw [if_neg h1] at h
      by_cases h2 : board_empty pos = false
      · rw [minimax_full pos 0 h1f h2, if_pos h2] at *
        exact of_decide_eq_true h
      · rw [if_neg h2] at h
        rw [minimax_horizon pos h1f (by simpa using h2)]
        exact of_decide_eq_true h
  | succ d ih =>
    intro pos b h
    simp only [lbCheck] at h
    by_cases h1 : checkmate pos = true
    · rw [minimax_won pos (d + 1) h1]
      rw [if_pos h1] at h
      exact of_decide_eq_true h
    · have h1f : checkmate pos = false := by simpa using h1
      rw [if_neg h1] at h
      by_cases h2 : board_empty pos = false
      · rw [minimax_full pos (d + 1) h1f h2, if_pos h2] at *
        exact of_decide_eq_true h
      · rw [if_neg h2] at h
        have h2t : board_empty pos = true := by simpa using h2
        by_cases hc : pos.color = Sq.WHITE
        · rw [if_pos hc] at h
          obtain ⟨m, hm, hcheck⟩ := List.any_eq_true.mp h
          rw [minimax_succ_white pos d h1f h2t hc]
          refine le_trans (ih (move_do pos m) b hcheck) ?_
          exact le_foldl_max_of_mem _ _ _ m
            ((mem_move_generate pos m).mpr (orderedMoves_empty_sq pos m hm))
        · rw [if_neg hc] at h
          rw [Bool.and_eq_true] at h
          obtain ⟨hb, hall⟩ := h
          rw [minimax_succ_black pos d h1f h2t hc]
          refine le_foldl_min _ b _ _ (of_decide_eq_true hb) ?_
          intro m hm
          exact ih (move_do pos m) b (List.all_eq_true.mp hall m hm)

set_option maxRecDepth 100000 in
set_option maxHeartbeats 80000000 in
/-- Claim C2: minimax applied to the all-empty starting position with depth
9 returns score 0 - perfect play from the empty board is a draw. The two
inequalities are established by the sound bound checkers, which walk only a
certificate-sized part of the game tree. -/
theorem C2_empty_board_draw : minimax startPos 9 = 0 :=
  le_antisymm
    (ubCheck_sound 9 startPos 0 (by decide))
    (lbCheck_sound 9 startPos 0 (by decide))

/-- Claim C1 counterexample: pos0 is neither won nor full and WHITE is to
move, yet minimax at depth 0 does not return eval, as the claim would have
it - the code returns MINUS eval when WHITE is to move (here eval pos0 = 1
and minimax pos0 0 = -1). -/
theorem C1_horizon_sign_cex :
    checkmate pos0 = false ∧ board_empty pos0 = true ∧ pos0.color = Sq.WHITE
    ∧ eval pos0 = 1 ∧ minimax pos0 0 = -1
    ∧ ¬ minimax pos0 0 = eval pos0 := by
  decide

/-- Claim C1 (amended): for every position that is neither won nor full,
minimax at depth 0 returns MINUS the heuristic eval of the position when
the side to move is the first player (WHITE) and PLUS the heuristic when
the side to move is the second player (BLACK). The original claim has the
two signs exactly swapped. -/
theorem C1_horizon_sign (pos : BoardPos) (h1 : checkmate pos = false)
    (h2 : board_empty pos = true) :
    minimax pos 0 = if pos.color = Sq.WHITE then -(eval pos) else eval pos :=
  minimax_horizon pos h1 h2

/-- Witness for C1_horizon_sign at the concrete position pos0. -/
theorem C1_horizon_sign_witness :
    minimax pos0 0 = if pos0.color = Sq.WHITE then -(eval pos0) else eval pos0 :=
  C1_horizon_sign pos0 (by decide) (by decide)

/-- Claim C3: checkmate is true exactly when one of the 8 fixed winning
triples has all three squares occupied by the mark opposite to the side to
move (the mark that made the last move). -/
theorem C3_checkmate_iff (pos : BoardPos) :
    checkmate pos = true
      ↔ ∃ t ∈ winning_squares,
          pos.sq t.1 = otherColor pos.color
          ∧ pos.sq t.2.1 = otherColor pos.color
          ∧ pos.sq t.2.2 = otherColor pos.color := by
  simp [checkmate, tripleOwned, List.any_eq_true, Bool.and_eq_true,
    decide_eq_true_eq, and_assoc]

/-- The squares split into empty, white and black: the three filters of any
index list have lengths summing to the length of the list. -/
lemma length_filter_three (f : Fin 9 → Sq) : ∀ (l : List (Fin 9)),
    (l.filter (fun i => decide (f i = Sq.EMPTY))).length
      + ((l.filter (fun i => decide (f i = Sq.WHITE))).length
        + (l.filter (fun i => decide (f i = Sq.BLACK))).length) = l.length
  | [] => rfl
  | x :: xs => by
    have ih := length_filter_three f xs
    rcases h : f x <;> simp [List.filter_cons, h] <;> omega

/-- Claim C4: move_generate produces exactly the indices whose square is
EMPTY, pairwise strictly ascending, and its length is 9 minus the number of
occupied squares (WHITE count plus BLACK count). -/
theorem C4_move_generate_spec (pos : BoardPos) :
    (∀ m : Fin 9, m ∈ move_generate pos ↔ pos.sq m = Sq.EMPTY)
    ∧ (move_generate pos).Pairwise (· < ·)
    ∧ (move_generate pos).length
        = 9 - (countColor pos Sq.WHITE + countColor pos Sq.BLACK) := by
  refine ⟨mem_move_generate pos, ?_, ?_⟩
  · have h : squareIndices.Pairwise (· < ·) := by decide
    exact h.sublist (List.filter_sublist _)
  · have h := length_filter_three pos.sq squareIndices
    simp only [move_generate, countColor]
    have h9 : squareIndices.length = 9 := rfl
    omega

/-- Apply then undo with the same move restores the position, provided the
target square was empty and the side to move is one of the two marks (the
data model restricts side_to_move to the two marks; flipping twice is then
the identity). -/
lemma move_do_undo (pos : BoardPos) (m : Fin 9) (hsq : pos.sq m = Sq.EMPTY)
    (hc : ¬ pos.color = Sq.EMPTY) : move_undo (move_do pos m) m = pos := by
  obtain ⟨f, c⟩ := pos
  simp only [move_do, move_undo] at *
  congr 1
  · rw [Function.update_idem, ← hsq, Function.update_eq_self]
  · rcases c
    · rfl
    · rfl
    · exact absurd rfl hc

/-- Claim C5: for every position whose side to move is one of the two marks
and every move onto an empty square, applying the move and undoing the same
move restores every square and the side to move. -/
theorem C5_apply_undo_roundtrip (pos : BoardPos) (m : Fin 9)
    (hsq : pos.sq m = Sq.EMPTY)
    (hc : pos.color = Sq.WHITE ∨ pos.color = Sq.BLACK) :
    (∀ i : Fin 9, (move_undo (move_do pos m) m).sq i = pos.sq i)
    ∧ (move_undo (move_do pos m) m).color = pos.color := by
  have hce : ¬ pos.color = Sq.EMPTY := by rcases hc with h | h <;> simp [h]
  rw [move_do_undo pos m hsq hce]
  exact ⟨fun _ => rfl, rfl⟩

/-- Witness for C5_apply_undo_roundtrip: playing square 4 on the empty
board and undoing it restores the empty board. -/
theorem C5_witness :
    (∀ i : Fin 9, (move_undo (move_do startPos 4) 4).sq i = startPos.sq i)
    ∧ (move_undo (move_do startPos 4) 4).color = startPos.color :=
  C5_apply_undo_roundtrip startPos 4 (by decide) (Or.inl (by decide))

/-- Updating one square that did not hold color c adds one to the filter
count for c exactly when the written value is c, over any duplicate-free
index list containing the square. -/
lemma length_filter_update (f : Fin 9 → Sq) (m : Fin 9) (v c : Sq)
    (hm : ¬ f m = c) : ∀ (l : List (Fin 9)), l.Nodup → m ∈ l →
    (l.filter (fun i => decide (Function.update f m v i = c))).length
      = (l.filter (fun i => decide (f i = c))).length + (if v = c then 1 else 0)
  | x :: xs, hnd, hmem => by
    have hx : x ∉ xs := (List.nodup_cons.mp hnd).1
    have hnd2 : xs.Nodup := (List.nodup_cons.mp hnd).2
    rcases List.mem_cons.mp hmem with he | he
    · subst he
      have htail :
          xs.filter (fun i => decide (Function.update f m v i = c))
            = xs.filter (fun i => decide (f i = c)) := by
        refine List.filter_congr ?_
        intro i hi
        have him : ¬ i = m := fun he2 => hx (show m ∈ xs from he2 ▸ hi)
        rw [Function.update_noteq him v f]
      simp only [List.filter_cons, Function.update_same, htail, hm]
      by_cases hv : v = c <;> simp [hv]
    · have hxm : ¬ x = m := fun he2 => hx (he2 ▸ he)
      have ih := length_filter_update f m v c hm xs hnd2 he
      simp only [List.filter_cons, Function.update_noteq hxm v f]
      by_cases hfx : f x = c
      · simp only [hfx, decide_true_eq_true, if_true, List.length_cons, ih]
        omega
      · simp [hfx, ih]

/-- Effect of move_do on the color counts: the count of the color that just
moved grows by one, the other mark count is unchanged. -/
lemma countColor_move_do (pos : BoardPos) (m : Fin 9) (c : Sq)
    (hsq : pos.sq m = Sq.EMPTY) (hc : ¬ c = Sq.EMPTY) :
    countColor (move_do pos m) c
      = countColor pos c + (if pos.color = c then 1 else 0) := by
  have hm : ¬ pos.sq m = c := fun h => hc (by rw [← h]; exact hsq)
  have hnd : squareIndices.Nodup := by decide
  exact length_filter_update pos.sq m pos.color c hm squareIndices hnd
    (mem_squareIndices m)

/-- Claim C8: the count invariant - the two mark counts differ by at most
one and the side to move is a mark whose count is not greater - is
preserved by move_do on an empty square, and the matching move_undo then
restores a position satisfying it as well. -/
theorem C8_invariant_preserved (pos : BoardPos) (m : Fin 9)
    (hinv : posInv pos) (hsq : pos.sq m = Sq.EMPTY) :
    posInv (move_do pos m) ∧ posInv (move_undo (move_do pos m) m) := by
  obtain ⟨d1, d2, hside⟩ := hinv
  have hce : ¬ pos.color = Sq.EMPTY := by
    rcases hside with ⟨hcol, _⟩ | ⟨hcol, _⟩ <;> simp [hcol]
  have hW := countColor_move_do pos m Sq.WHITE hsq (by simp)
  have hB := countColor_move_do pos m Sq.BLACK hsq (by simp)
  constructor
  · rcases hside with ⟨hcol, hle⟩ | ⟨hcol, hle⟩
    · have hcolor2 : (move_do pos m).color = Sq.BLACK := by
        simp [move_do, otherColor, hcol]
      have hW2 : countColor (move_do pos m) Sq.WHITE = countColor pos Sq.WHITE + 1 := by
        rw [hW, if_pos hcol]
      have hB2 : countColor (move_do pos m) Sq.BLACK = countColor pos Sq.BLACK := by
        rw [hB, if_neg (by rw [hcol]; simp)]
        omega
      exact ⟨by omega, by omega, Or.inr ⟨hcolor2, by omega⟩⟩
    · have hcolor2 : (move_do pos m).color = Sq.WHITE := by
        simp [move_do, otherColor, hcol]
      have hW2 : countColor (move_do pos m) Sq.WHITE = countColor pos Sq.WHITE := by
        rw [hW, if_neg (by rw [hcol]; simp)]
        omega
      have hB2 : countColor (move_do pos m) Sq.BLACK = countColor pos Sq.BLACK + 1 := by
        rw [hB, if_pos hcol]
      exact ⟨by omega, by omega, Or.inl ⟨hcolor2, by omega⟩⟩
  · rw [move_do_undo pos m hsq hce]
    exact ⟨d1, d2, hside⟩

/-- Witness for C8_invariant_preserved: the empty board satisfies the
invariant and it is preserved when WHITE plays square 0 and when that move
is undone. -/
theorem C8_witness :
    posInv (move_do startPos 0) ∧ posInv (move_undo (move_do startPos 0) 0) :=
  C8_invariant_preserved startPos 0 (by unfold posInv; decide) (by decide)

/-- Claim C9: for every position whose side to move is one of the two
marks, the heuristic eval lies in [-8, 8]; 8 is strictly below the won
sentinel INF = 100; a horizon score of a position that is neither won nor
full never equals the sentinels INF or -INF; and every minimax value lies
in [-INF, INF]. -/
theorem C9_score_bounds :
    (∀ pos : BoardPos, ¬ pos.color = Sq.EMPTY → -8 ≤ eval pos ∧ eval pos ≤ 8)
    ∧ (8 : Int) < INF
    ∧ (∀ pos : BoardPos, checkmate pos = false → board_empty pos = true →
        ¬ minimax pos 0 = INF ∧ ¬ minimax pos 0 = -INF)
    ∧ (∀ (pos : BoardPos) (d : Nat), -INF ≤ minimax pos d ∧ minimax pos d ≤ INF) := by
  refine ⟨fun pos hc => eval_bound_strict pos hc, by norm_num [INF], ?_, ?_⟩
  · intro pos h1 h2
    rw [minimax_horizon pos h1 h2]
    have hw := eval_bound_weak pos
    constructor <;> split <;> simp only [INF] <;> omega
  · intro pos d
    exact minimax_bound d pos

/-- Witness for C9_score_bounds at the concrete position pos0 and depth 0. -/
theorem C9_witness :
    (-8 ≤ eval pos0 ∧ eval pos0 ≤ 8)
    ∧ (8 : Int) < INF
    ∧ (¬ minimax pos0 0 = INF ∧ ¬ minimax pos0 0 = -INF)
    ∧ (-INF ≤ minimax pos0 0 ∧ minimax pos0 0 ≤ INF) :=
  ⟨C9_score_bounds.1 pos0 (by decide), C9_score_bounds.2.1,
    C9_score_bounds.2.2.1 pos0 (by decide) (by decide),
    C9_score_bounds.2.2.2 pos0 0⟩

/-- The Option-valued fold of minimaxF collapses to the pure fold once
every child evaluation is known to succeed. -/
lemma foldl_option_some (comb : Int → Int → Int) (fF : Fin 9 → Option Int)
    (f : Fin 9 → Int) (hf : ∀ m, fF m = some (f m)) :
    ∀ (l : List (Fin 9)) (a : Int),
      l.foldl
        (fun acc m =>
          match acc, fF m with
          | some s, some sb => some (comb s sb)
          | _, _ => none)
        (some a)
      = some (l.foldl (fun s m => comb s (f m)) a)
  | [], _ => rfl
  | x :: xs, a => by
    simp only [List.foldl_cons, hf x]
    exact foldl_option_some comb fF f hf xs (comb a (f x))

/-- Fuel equal to the remaining depth always suffices for minimaxF. -/
lemma minimaxF_eq : ∀ (d fuel : Nat) (pos : BoardPos), d ≤ fuel →
    minimaxF fuel pos d = some (minimax pos d) := by
  intro d
  induction d with
  | zero =>
    intro fuel pos _
    by_cases h1 : checkmate pos = true
    · simp [minimaxF, minimax, h1]
    · by_cases h2 : board_empty pos = false <;>
        simp [minimaxF, minimax, h1, h2]
  | succ d ih =>
    intro fuel pos hd
    obtain ⟨fuel2, rfl⟩ : ∃ fuel2, fuel = fuel2 + 1 :=
      ⟨fuel - 1, by omega⟩
    by_cases h1 : checkmate pos = true
    · simp [minimaxF, minimax, h1]
    · by_cases h2 : board_empty pos = false
      · simp [minimaxF, minimax, h1, h2]
      · have hchild : ∀ m : Fin 9,
            minimaxF fuel2 (move_do pos m) d = some (minimax (move_do pos m) d) :=
          fun m => ih fuel2 (move_do pos m) (by omega)
        have hfold := foldl_option_some
          (fun s sb => if pos.color = Sq.WHITE then max s sb else min s sb)
          (fun m => minimaxF fuel2 (move_do pos m) d)
          (fun m => minimax (move_do pos m) d)
          hchild
          (move_generate pos)
          (if pos.color = Sq.WHITE then -INF else INF)
        simp only [minimaxF, minimax, h1, h2, Bool.false_eq_true, if_false,
          Bool.true_eq_false]
        exact hfold

/-- Claim C10: the recursion of minimax is well-founded on the depth
argument - every recursive call decreases the depth by exactly one and a
won position, a full board and depth 0 are non-recursive base cases - so
the fuel-instrumented minimaxF already succeeds with fuel equal to the
depth, for every position and depth. -/
theorem C10_minimax_terminates (pos : BoardPos) (d : Nat) :
    minimaxF d pos d = some (minimax pos d) :=
  minimaxF_eq d d pos (le_refl d)

/-!  Characterization of the strict-improvement selection fold of
move_pick. -/

/-- With WHITE to move, the pick fold either never updates (no candidate
strictly above the start score) or returns the first candidate attaining
the maximum: the list splits as l1 ++ m :: l2 with every candidate of l1
strictly below m and no candidate above m. -/
lemma pick_fold_max (f : Fin 9 → Int) :
    ∀ (l : List (Fin 9)) (m0 s0 : Int),
      (l.foldl (fun st m => if st.2 < f m then ((m : Int), f m) else st) (m0, s0)
          = (m0, s0)
        ∧ ∀ x ∈ l, f x ≤ s0)
      ∨ (∃ (l1 : List (Fin 9)) (m : Fin 9) (l2 : List (Fin 9)), l = l1 ++ m :: l2
          ∧ l.foldl (fun st m => if st.2 < f m then ((m : Int), f m) else st) (m0, s0)
              = ((m : Int), f m)
          ∧ s0 < f m
          ∧ (∀ x ∈ l1, f x < f m)
          ∧ (∀ x ∈ l, f x ≤ f m))
  | [], m0, s0 => Or.inl ⟨rfl, by simp⟩
  | x :: xs, m0, s0 => by
    simp only [List.foldl_cons]
    by_cases hx : s0 < f x
    · rw [if_pos hx]
      rcases pick_fold_max f xs ((x : Int)) (f x) with
        ⟨heq, hall⟩ | ⟨l1, m, l2, hsplit, heq, hlt, hstrict, hmax⟩
      · refine Or.inr ⟨[], x, xs, rfl, heq, hx, by simp, ?_⟩
        intro y hy
        rcases List.mem_cons.mp hy with h | h
        · exact h ▸ le_refl _
        · exact hall y h
      · refine Or.inr ⟨x :: l1, m, l2, by rw [hsplit]; rfl, heq,
          lt_trans hx hlt, ?_, ?_⟩
        · intro y hy
          rcases List.mem_cons.mp hy with h | h
          · exact h ▸ hlt
          · exact hstrict y h
        · intro y hy
          rcases List.mem_cons.mp hy with h | h
          · exact h ▸ le_of_lt hlt
          · exact hmax y h
    · rw [if_neg hx]
      rcases pick_fold_max f xs m0 s0 with
        ⟨heq, hall⟩ | ⟨l1, m, l2, hsplit, heq, hlt, hstrict, hmax⟩
      · refine Or.inl ⟨heq, ?_⟩
        intro y hy
        rcases List.mem_cons.mp hy with h | h
        · exact h ▸ le_of_not_lt hx
        · exact hall y h
      · refine Or.inr ⟨x :: l1, m, l2, by rw [hsplit]; rfl, heq, hlt, ?_, ?_⟩
        · intro y hy
          rcases List.mem_cons.mp hy with h | h
          · exact h ▸ lt_of_le_of_lt (le_of_not_lt hx) hlt
          · exact hstrict y h
        · intro y hy
          rcases List.mem_cons.mp hy with h | h
          · exact h ▸ le_of_lt (lt_of_le_of_lt (le_of_not_lt hx) hlt)
          · exact hmax y h

/-- Mirror of pick_fold_max for the minimizing side. -/
lemma pick_fold_min (f : Fin 9 → Int) :
    ∀ (l : List (Fin 9)) (m0 s0 : Int),
      (l.foldl (fun st m => if f m < st.2 then ((m : Int), f m) else st) (m0, s0)
          = (m0, s0)
        ∧ ∀ x ∈ l, s0 ≤ f x)
      ∨ (∃ (l1 : List (Fin 9)) (m : Fin 9) (l2 : List (Fin 9)), l = l1 ++ m :: l2
          ∧ l.foldl (fun st m => if f m < st.2 then ((m : Int), f m) else st) (m0, s0)
              = ((m : Int), f m)
          ∧ f m < s0
          ∧ (∀ x ∈ l1, f m < f x)
          ∧ (∀ x ∈ l, f m ≤ f x))
  | [], m0, s0 => Or.inl ⟨rfl, by simp⟩
  | x :: xs, m0, s0 => by
    simp only [List.foldl_cons]
    by_cases hx : f x < s0
    · rw [if_pos hx]
      rcases pick_fold_min f xs ((x : Int)) (f x) with
        ⟨heq, hall⟩ | ⟨l1, m, l2, hsplit, heq, hlt, hstrict, hmax⟩
      · refine Or.inr ⟨[], x, xs, rfl, heq, hx, by simp, ?_⟩
        intro y hy
        rcases List.mem_cons.mp hy with h | h
        · exact h ▸ le_refl _
        · exact hall y h
      · refine Or.inr ⟨x :: l1, m, l2, by rw [hsplit]; rfl, heq,
          lt_trans hlt hx, ?_, ?_⟩
        · intro y hy
          rcases List.mem_cons.mp hy with h | h
          · exact h ▸ hlt
          · exact hstrict y h
        · intro y hy
          rcases List.mem_cons.mp hy with h | h
          · exact h ▸ le_of_lt hlt
          · exact hmax y h
    · rw [if_neg hx]
      rcases pick_fold_min f xs m0 s0 with
        ⟨heq, hall⟩ | ⟨l1, m, l2, hsplit, heq, hlt, hstrict, hmax⟩
      · refine Or.inl ⟨heq, ?_⟩
        intro y hy
        rcases List.mem_cons.mp hy with h | h
        · exact h ▸ le_of_not_lt hx
        · exact hall y h
      · refine Or.inr ⟨x :: l1, m, l2, by rw [hsplit]; rfl, heq, hlt, ?_, ?_⟩
        · intro y hy
          rcases List.mem_cons.mp hy with h | h
          · exact h ▸ lt_of_lt_of_le hlt (le_of_not_lt hx)
          · exact hstrict y h
        · intro y hy
          rcases List.mem_cons.mp hy with h | h
          · exact h ▸ le_of_lt (lt_of_lt_of_le hlt (le_of_not_lt hx))
          · exact hmax y h

/-- The pick fold leaves its state unchanged when no candidate strictly
beats the current score (WHITE form). -/
lemma pick_fold_stay (f : Fin 9 → Int) :
    ∀ (l : List (Fin 9)) (st : Int × Int), (∀ m ∈ l, ¬ st.2 < f m) →
      l.foldl (fun st2 m => if st2.2 < f m then ((m : Int), f m) else st2) st = st
  | [], _, _ => rfl
  | x :: xs, st, h => by
    simp only [List.foldl_cons, if_neg (h x (List.mem_cons_self x xs))]
    exact pick_fold_stay f xs st (fun m hm => h m (List.mem_cons_of_mem x hm))

/-- The pick step of move_pick with WHITE to move is the strict-max step. -/
lemma pickStep_white (pos : BoardPos) (depth : Nat) (hc : pos.color = Sq.WHITE) :
    pickStep pos depth
      = fun st m =>
          if st.2 < candScore pos depth m then ((m : Int), candScore pos depth m)
          else st := by
  funext st m
  simp [pickStep, candScore, hc]

/-- The pick step of move_pick when WHITE is not to move is the strict-min
step. -/
lemma pickStep_other (pos : BoardPos) (depth : Nat) (hc : ¬ pos.color = Sq.WHITE) :
    pickStep pos depth
      = fun st m =>
          if candScore pos depth m < st.2 then ((m : Int), candScore pos depth m)
          else st := by
  funext st m
  simp [pickStep, candScore, hc]

/-- Claim C6: move_pick returns a candidate m such that the generated list
splits as l1 ++ m :: l2, no candidate scores a strict improvement over m
(so ties keep the earliest-indexed candidate), every candidate generated
before m scores strictly worse than m, and if no candidate at all strictly
improves the initial score (-INF for WHITE, +INF otherwise) then m is the
first generated candidate (l1 = []). Improvement is strict greater-than
for WHITE and strict less-than otherwise. -/
theorem C6_move_pick_strict_improvement (pos : BoardPos) (depth : Nat)
    (hne : move_generate pos ≠ []) :
    ∃ (l1 : List (Fin 9)) (m : Fin 9) (l2 : List (Fin 9)),
      move_generate pos = l1 ++ m :: l2
      ∧ move_pick pos depth = (m : Int)
      ∧ (∀ x ∈ move_generate pos,
          ¬ improves pos (candScore pos depth x) (candScore pos depth m))
      ∧ (∀ x ∈ l1, improves pos (candScore pos depth m) (candScore pos depth x))
      ∧ ((∀ x ∈ move_generate pos,
            ¬ improves pos (candScore pos depth x)
              (if pos.color = Sq.WHITE then -INF else INF)) → l1 = []) := by
  obtain ⟨a, as, hl⟩ := List.exists_cons_of_ne_nil hne
  have hmp : move_pick pos depth
      = ((move_generate pos).foldl (pickStep pos depth)
          ((match move_generate pos with | [] => (-1 : Int) | m :: _ => (m : Int)),
            if pos.color = Sq.WHITE then -INF else INF)).1 := rfl
  rw [hl] at hmp ⊢
  simp only at hmp
  by_cases hcW : pos.color = Sq.WHITE
  · rw [pickStep_white pos depth hcW, if_pos hcW] at hmp
    simp only [improves, if_pos hcW]
    rcases pick_fold_max (candScore pos depth) (a :: as) ((a : Int)) (-INF) with
      ⟨heq, hall⟩ | ⟨l1, m, l2, hsplit, heq, hlt, hstrict, hmax⟩
    · refine ⟨[], a, as, rfl, ?_, ?_, by simp, fun _ => rfl⟩
      · rw [hmp, heq]
      · intro x hx
        have h1 := hall x hx
        have h2 := (minimax_bound depth (move_do pos a)).1
        exact not_lt_of_le (le_trans h1 h2)
    · refine ⟨l1, m, l2, hsplit, ?_, ?_, hstrict, ?_⟩
      · rw [hmp, heq]
      · intro x hx
        exact not_lt_of_le (hmax x hx)
      · intro hnone
        exfalso
        have hm : m ∈ a :: as := by
          rw [hsplit]
          exact List.mem_append.mpr (Or.inr (List.mem_cons_self m l2))
        exact hnone m hm hlt
  · rw [pickStep_other pos depth hcW, if_neg hcW] at hmp
    simp only [improves, if_neg hcW]
    rcases pick_fold_min (candScore pos depth) (a :: as) ((a : Int)) INF with
      ⟨heq, hall⟩ | ⟨l1, m, l2, hsplit, heq, hlt, hstrict, hmax⟩
    · refine ⟨[], a, as, rfl, ?_, ?_, by simp, fun _ => rfl⟩
      · rw [hmp, heq]
      · intro x hx
        have h1 := hall x hx
        have h2 := (minimax_bound depth (move_do pos a)).2
        exact not_lt_of_le (le_trans h2 h1)
    · refine ⟨l1, m, l2, hsplit, ?_, ?_, hstrict, ?_⟩
      · rw [hmp, heq]
      · intro x hx
        exact not_lt_of_le (hmax x hx)
      · intro hnone
        exfalso
        have hm : m ∈ a :: as := by
          rw [hsplit]
          exact List.mem_append.mpr (Or.inr (List.mem_cons_self m l2))
        exact hnone m hm hlt

/-- Claim C7: in any position where WHITE is to move with marks on squares
0 and 1 and square 2 empty, move_pick at any depth of at least 1 picks
square 2, and the move completes the top row so checkmate holds right
after it is applied. (Square 2 is then the first generated candidate and
scores the won sentinel INF, which no other candidate can beat.) -/
theorem C7_pick_winning_square (pos : BoardPos) (depth : Nat)
    (hc : pos.color = Sq.WHITE) (h0 : pos.sq 0 = Sq.WHITE)
    (h1 : pos.sq 1 = Sq.WHITE) (h2 : pos.sq 2 = Sq.EMPTY)
    (_hd : 1 ≤ depth) :
    move_pick pos depth = 2 ∧ checkmate (move_do pos 2) = true := by
  have hchild_color : (move_do pos 2).color = Sq.BLACK := by
    simp [move_do, hc, otherColor]
  have e0 : (move_do pos 2).sq 0 = pos.sq 0 := by
    show Function.update pos.sq 2 pos.color 0 = pos.sq 0
    exact Function.update_noteq (by decide) _ _
  have e1 : (move_do pos 2).sq 1 = pos.sq 1 := by
    show Function.update pos.sq 2 pos.color 1 = pos.sq 1
    exact Function.update_noteq (by decide) _ _
  have e2 : (move_do pos 2).sq 2 = pos.color := by
    show Function.update pos.sq 2 pos.color 2 = pos.color
    exact Function.update_same _ _ _
  have hcm : checkmate (move_do pos 2) = true := by
    apply List.any_eq_true.mpr
    refine ⟨(0, 1, 2), by decide, ?_⟩
    have hoc : otherColor (move_do pos 2).color = Sq.WHITE := by
      rw [hchild_color]
      rfl
    simp [tripleOwned, hoc, e0, e1, e2, h0, h1, hc]
  have hscore : candScore pos depth 2 = INF := by
    rw [candScore, minimax_won _ _ hcm, hchild_color]
    simp
  have hml : move_generate pos
      = 2 :: (([3,4,5,6,7,8] : List (Fin 9)).filter
          (fun i => decide (pos.sq i = Sq.EMPTY))) := by
    simp [move_generate, squareIndices, h0, h1, h2]
  have hmp : move_pick pos depth
      = ((2 :: (([3,4,5,6,7,8] : List (Fin 9)).filter
            (fun i => decide (pos.sq i = Sq.EMPTY)))).foldl
          (fun st m => if st.2 < candScore pos depth m
            then ((m : Int), candScore pos depth m) else st)
          (((2 : Fin 9) : Int), -INF)).1 := by
    have hdef : move_pick pos depth
        = ((move_generate pos).foldl (pickStep pos depth)
            ((match move_generate pos with | [] => (-1 : Int) | m :: _ => (m : Int)),
              if pos.color = Sq.WHITE then -INF else INF)).1 := rfl
    rw [hdef, hml, hc, pickStep_white pos depth hc]
    rfl
  refine ⟨?_, hcm⟩
  rcases pick_fold_max (candScore pos depth)
      (2 :: (([3,4,5,6,7,8] : List (Fin 9)).filter
        (fun i => decide (pos.sq i = Sq.EMPTY))))
      (((2 : Fin 9) : Int)) (-INF) with
    ⟨heq, hall⟩ | ⟨l1, m, l2, hsplit, heq, hlt, hstrict, hmax⟩
  · exfalso
    have h2le := hall 2 (List.mem_cons_self _ _)
    rw [hscore] at h2le
    exact absurd h2le (by norm_num [INF])
  · have hm2 : m = 2 := by
      rcases l1 with _ | ⟨x, l1t⟩
      · simpa using (List.cons_eq_cons.mp hsplit.symm).1
      · exfalso
        have hx2 : x = 2 := by
          simpa using (List.cons_eq_cons.mp hsplit.symm).1
        have hs := hstrict 2 (by rw [← hx2]; exact List.mem_cons_self _ _)
        have hb := (minimax_bound depth (move_do pos m)).2
        rw [hscore] at hs
        exact absurd (lt_of_lt_of_le hs hb) (lt_irrefl INF)
    rw [hmp, heq, hm2]
    simp

/-- Witness for C7_pick_winning_square at the concrete position pos0 with
depth 1. -/
theorem C7_witness : move_pick pos0 1 = 2 ∧ checkmate (move_do pos0 2) = true :=
  C7_pick_winning_square pos0 1 (by decide) (by decide) (by decide) (by decide)
    (by decide)

/-- Witness for C6_move_pick_strict_improvement at the empty board with
depth 0. -/
theorem C6_witness :
    ∃ (l1 : List (Fin 9)) (m : Fin 9) (l2 : List (Fin 9)),
      move_generate startPos = l1 ++ m :: l2
      ∧ move_pick startPos 0 = (m : Int)
      ∧ (∀ x ∈ move_generate startPos,
          ¬ improves startPos (candScore startPos 0 x) (candScore startPos 0 m))
      ∧ (∀ x ∈ l1, improves startPos (candScore startPos 0 m) (candScore startPos 0 x))
      ∧ ((∀ x ∈ move_generate startPos,
            ¬ improves startPos (candScore startPos 0 x)
              (if startPos.color = Sq.WHITE then -INF else INF)) → l1 = []) :=
  C6_move_pick_strict_improvement startPos 0 (by decide)

end Simtic
